import Mathlib

/-!
Shallow embedding of the `RingBuffer` data structure from
`src/rust_ring/src/main.rs` (a fixed-capacity circular byte buffer), together
with proofs of the specified properties.

Modelling conventions:
* `u8` values are modelled as `Nat` (the code performs no arithmetic on the
  stored bytes, only moves them).
* `usize` counters are modelled as `Nat` (all counters stay below the vector
  length, so machine overflow is unreachable).
* `Vec<Option<u8>>` is modelled as `List (Option Nat)`; the Rust indexing
  `self.buffer[i]` is modelled with `List.getD _ i none` / `List.set`, and the
  in-bounds invariant (which in Rust rules out the index panic) is proved
  separately for every reachable state.
* `Result<usize, RingBufferError>` is `Except RingBufferError Nat`; mutation of
  `&mut self` is explicit state passing: each operation returns its result
  paired with the successor state.
* The `assert!(capacity > 0)` panic in `new` is modelled by returning `none`.
-/

namespace RustRing

/-- The `RingBufferError` enum of the source: the single variant `NoSpaceLeft`. -/
inductive RingBufferError where
  | NoSpaceLeft
deriving DecidableEq

deriving instance DecidableEq for Except

/-- The `RingBuffer` struct: backing vector of optional bytes, capacity, read
index `head`, write index `tail`, and the current element count `size`. -/
structure RingBuffer where
  buffer : List (Option Nat)
  capacity : Nat
  head : Nat
  tail : Nat
  size : Nat
deriving DecidableEq

namespace RingBuffer

/-- The successful-construction state of `RingBuffer::new(capacity)`:
`vec![None; capacity]`, with `head = tail = size = 0`. -/
def mkEmpty (capacity : Nat) : RingBuffer :=
  { buffer := List.replicate capacity none
    capacity := capacity
    head := 0
    tail := 0
    size := 0 }

/-- `RingBuffer::new(capacity)`. The source asserts `capacity > 0` and panics
otherwise; the panic is modelled as `none`. -/
def new (capacity : Nat) : Option RingBuffer :=
  if 0 < capacity then some (mkEmpty capacity) else none

/-- `RingBuffer::is_empty`. -/
def is_empty (rb : RingBuffer) : Bool :=
  rb.size == 0

/-- `RingBuffer::is_full`. -/
def is_full (rb : RingBuffer) : Bool :=
  rb.size == rb.capacity

/-- `RingBuffer::len`. -/
def len (rb : RingBuffer) : Nat :=
  rb.size

/-- `RingBuffer::push`: on a full buffer, fail with `NoSpaceLeft` and leave the
state alone; otherwise store the value at `tail`, advance `tail` modulo
`capacity`, increment `size`, and return `Ok(1)`. -/
def push (rb : RingBuffer) (value : Nat) : Except RingBufferError Nat × RingBuffer :=
  if rb.is_full then
    (Except.error RingBufferError.NoSpaceLeft, rb)
  else
    (Except.ok 1,
      { rb with
          buffer := rb.buffer.set rb.tail (some value)
          tail := (rb.tail + 1) % rb.capacity
          size := rb.size + 1 })

/-- `RingBuffer::pop`: on an empty buffer return `None` with the state alone;
otherwise `take()` the slot at `head` (read it and clear it to `None`), advance
`head` modulo `capacity`, decrement `size`, and return the value. -/
def pop (rb : RingBuffer) : Option Nat × RingBuffer :=
  if rb.is_empty then
    (none, rb)
  else
    (rb.buffer.getD rb.head none,
      { rb with
          buffer := rb.buffer.set rb.head none
          head := (rb.head + 1) % rb.capacity
          size := rb.size - 1 })

/-- The `for &byte in data` loop of `RingBuffer::extend`, with `count` the
number of bytes written so far: on a full buffer return `Ok(count)` when
`count > 0` and `Err(NoSpaceLeft)` when `count = 0`; otherwise write the byte
as `push` does and continue. -/
def extendLoop (rb : RingBuffer) (data : List Nat) (count : Nat) :
    Except RingBufferError Nat × RingBuffer :=
  match data with
  | [] => (Except.ok count, rb)
  | byte :: rest =>
    if rb.is_full then
      (if count > 0 then Except.ok count else Except.error RingBufferError.NoSpaceLeft, rb)
    else
      extendLoop
        { rb with
            buffer := rb.buffer.set rb.tail (some byte)
            tail := (rb.tail + 1) % rb.capacity
            size := rb.size + 1 }
        rest (count + 1)

/-- `RingBuffer::extend`: `Ok(0)` on empty input, otherwise the write loop
starting from `count = 0`. -/
def extend (rb : RingBuffer) (data : List Nat) : Except RingBufferError Nat × RingBuffer :=
  if data.isEmpty then (Except.ok 0, rb) else extendLoop rb data 0

/-- `RingBuffer::drain`: perform `pop` up to `count` times, collecting the
values read, and stop at the first `None`. -/
def drain (rb : RingBuffer) (count : Nat) : List Nat × RingBuffer :=
  match count with
  | 0 => ([], rb)
  | n + 1 =>
    match pop rb with
    | (some byte, rb') =>
      let rec_result := drain rb' n
      (byte :: rec_result.1, rec_result.2)
    | (none, rb') => ([], rb')

/-- Repeated `push` keeping only the final state: the state reached by feeding
the values of `vs` to `push` one at a time, in order. -/
def pushAllState (rb : RingBuffer) (vs : List Nat) : RingBuffer :=
  vs.foldl (fun s v => (push s v).2) rb

/-- `true` iff the result is `Ok`. -/
def exceptIsOk (r : Except RingBufferError Nat) : Bool :=
  match r with
  | Except.ok _ => true
  | Except.error _ => false

/-- `true` iff feeding the values of `vs` to `push` one at a time makes every
single push return `Ok`. -/
def pushesOk (rb : RingBuffer) (vs : List Nat) : Bool :=
  match vs with
  | [] => true
  | v :: rest => exceptIsOk (push rb v).1 && pushesOk (push rb v).2 rest

/-- `pop` repeated `n` times, collecting the `n` optional results in order. -/
def popN (rb : RingBuffer) (n : Nat) : List (Option Nat) × RingBuffer :=
  match n with
  | 0 => ([], rb)
  | k + 1 =>
    let p := pop rb
    let rest := popN p.2 k
    (p.1 :: rest.1, rest.2)

/-- The logical slot at offset `i` from `head` (wrapping modulo capacity);
for `i < capacity` the map `i ↦ (head + i) % capacity` enumerates every
physical slot exactly once. -/
def slot (rb : RingBuffer) (i : Nat) : Option Nat :=
  rb.buffer.getD ((rb.head + i) % rb.capacity) none

/-- The abstract contents of the buffer: the `size` logical slots starting at
`head`, in read order. -/
def contents (rb : RingBuffer) : List (Option Nat) :=
  (List.range rb.size).map (fun i => slot rb i)

/-- Well-formedness of a buffer state: the backing vector has length
`capacity`, both cursors are in range, `size ≤ capacity`, `tail` sits `size`
slots after `head` (mod `capacity`), the first `size` logical slots hold
values, and all remaining slots are cleared. Every state reachable from
`new` satisfies this. -/
def WF (rb : RingBuffer) : Prop :=
  rb.buffer.length = rb.capacity ∧
  rb.head < rb.capacity ∧
  rb.tail < rb.capacity ∧
  rb.size ≤ rb.capacity ∧
  rb.tail = (rb.head + rb.size) % rb.capacity ∧
  (∀ i, i < rb.size → (slot rb i).isSome = true) ∧
  (∀ i, i < rb.capacity → rb.size ≤ i → slot rb i = none)

instance instDecidableWF (rb : RingBuffer) : Decidable (WF rb) := by
  unfold WF
  infer_instance

/-- The slot-content invariant of the data model: the `size` logical slots
starting at `head` (wrapping modulo `capacity`) hold values, and every
physical slot outside that window is cleared to `none`. -/
def slotsOk (rb : RingBuffer) : Prop :=
  (∀ i, i < rb.size → (slot rb i).isSome = true) ∧
  (∀ j, j < rb.capacity → (∀ i, i < rb.size → j ≠ (rb.head + i) % rb.capacity) →
    rb.buffer.getD j none = none)

instance instDecidableSlotsOk (rb : RingBuffer) : Decidable (slotsOk rb) := by
  unfold slotsOk
  infer_instance

end RingBuffer

/-- The four mutating operations, for quantifying over operation sequences. -/
inductive Op where
  | push (v : Nat)
  | pop
  | extend (data : List Nat)
  | drain (n : Nat)

/-- Apply one operation to a buffer state, discarding the returned
result and keeping the successor state. -/
def applyOp (rb : RingBuffer) : Op → RingBuffer
  | Op.push v => (rb.push v).2
  | Op.pop => rb.pop.2
  | Op.extend data => (rb.extend data).2
  | Op.drain n => (rb.drain n).2

/-- Apply a sequence of operations in order. -/
def applyOps (rb : RingBuffer) (ops : List Op) : RingBuffer :=
  ops.foldl applyOp rb

end RustRing

namespace RustRing

/-! ### Helper lemmas -/

/-- `List.getD` after `List.set` at the same (in-bounds) index. -/
theorem getD_set_self (l : List (Option Nat)) (i : Nat) (a : Option Nat)
    (h : i < l.length) : (l.set i a).getD i none = a := by
  simp [List.getD_eq_getElem?_getD, List.getElem?_set_self h]

/-- `List.getD` after `List.set` at a different index. -/
theorem getD_set_ne (l : List (Option Nat)) (i j : Nat) (a : Option Nat)
    (h : i ≠ j) : (l.set i a).getD j none = l.getD j none := by
  simp [List.getD_eq_getElem?_getD, List.getElem?_set_ne h]

/-- The offset-to-physical-index map `i ↦ (a + i) % n` is injective on
`[0, n)`. -/
theorem addModInj {n a i j : Nat} (hi : i < n) (hj : j < n)
    (h : (a + i) % n = (a + j) % n) : i = j := by
  have h2 : i % n = j % n := Nat.ModEq.add_left_cancel' a h
  rwa [Nat.mod_eq_of_lt hi, Nat.mod_eq_of_lt hj] at h2

namespace RingBuffer

/-- On a non-full buffer, `push` succeeds with the record update of the
source. -/
theorem push_ok (rb : RingBuffer) (v : Nat) (h : rb.size < rb.capacity) :
    push rb v = (Except.ok 1,
      { rb with
          buffer := rb.buffer.set rb.tail (some v)
          tail := (rb.tail + 1) % rb.capacity
          size := rb.size + 1 }) := by
  simp [push, is_full, Nat.ne_of_lt h]

/-- A successful `push` preserves well-formedness, keeps `capacity`, `head`
and the buffer length, increments `size`, and appends the pushed value to the
abstract contents. -/
theorem push_WF (rb : RingBuffer) (v : Nat) (hwf : WF rb)
    (h : rb.size < rb.capacity) :
    WF (push rb v).2 ∧
    (push rb v).2.capacity = rb.capacity ∧
    (push rb v).2.size = rb.size + 1 ∧
    contents (push rb v).2 = contents rb ++ [some v] := by
  obtain ⟨hlen, hhead, htail, hsize, htaileq, hfill, hclear⟩ := hwf
  have hn : 0 < rb.capacity := Nat.lt_of_le_of_lt (Nat.zero_le _) h
  rw [push_ok rb v h]
  dsimp only
  have hslot_new :
      (rb.buffer.set rb.tail (some v)).getD ((rb.head + rb.size) % rb.capacity) none
        = some v := by
    rw [← htaileq]
    exact getD_set_self _ _ _ (by rw [hlen]; exact htail)
  have hslot_old : ∀ i, i < rb.capacity → i ≠ rb.size →
      (rb.buffer.set rb.tail (some v)).getD ((rb.head + i) % rb.capacity) none
        = slot rb i := by
    intro i hi hne
    have hneq : (rb.head + i) % rb.capacity ≠ rb.tail := by
      rw [htaileq]
      intro hc
      exact hne (addModInj hi h hc)
    rw [getD_set_ne _ _ _ _ (Ne.symm hneq)]
    rfl
  refine ⟨⟨?_, ?_, ?_, ?_, ?_, ?_, ?_⟩, rfl, rfl, ?_⟩
  · simpa using hlen
  · exact hhead
  · exact Nat.mod_lt _ hn
  · exact h
  · show (rb.tail + 1) % rb.capacity = (rb.head + (rb.size + 1)) % rb.capacity
    rw [htaileq, Nat.mod_add_mod, Nat.add_assoc]
  · intro i hi
    show ((rb.buffer.set rb.tail (some v)).getD ((rb.head + i) % rb.capacity) none).isSome
      = true
    rcases Nat.lt_or_ge i rb.size with hlt | hge
    · rw [hslot_old i (Nat.lt_of_lt_of_le hlt hsize) (Nat.ne_of_lt hlt)]
      exact hfill i hlt
    · have heq : i = rb.size := Nat.le_antisymm (Nat.lt_succ_iff.mp hi) hge
      rw [heq, hslot_new]
      rfl
  · intro i hi hge
    have hi' : i < rb.capacity := hi
    have hge' : rb.size + 1 ≤ i := hge
    show (rb.buffer.set rb.tail (some v)).getD ((rb.head + i) % rb.capacity) none = none
    rw [hslot_old i hi' (by omega)]
    exact hclear i hi' (by omega)
  · show (List.range (rb.size + 1)).map _ = (List.range rb.size).map _ ++ [some v]
    rw [List.range_succ, List.map_append]
    congr 1
    · exact List.map_congr_left fun i hi => by
        rw [List.mem_range] at hi
        exact hslot_old i (Nat.lt_of_lt_of_le hi hsize) (Nat.ne_of_lt hi)
    · simp only [List.map_cons, List.map_nil]
      rw [show slot { rb with
            buffer := rb.buffer.set rb.tail (some v)
            tail := (rb.tail + 1) % rb.capacity
            size := rb.size + 1 } rb.size
          = (rb.buffer.set rb.tail (some v)).getD ((rb.head + rb.size) % rb.capacity) none
          from rfl]
      rw [hslot_new]

/-- On a non-empty buffer, `pop` returns the slot at `head` and the record
update of the source. -/
theorem pop_ok (rb : RingBuffer) (h : 0 < rb.size) :
    pop rb = (rb.buffer.getD rb.head none,
      { rb with
          buffer := rb.buffer.set rb.head none
          head := (rb.head + 1) % rb.capacity
          size := rb.size - 1 }) := by
  have h0 : rb.size ≠ 0 := by omega
  simp [pop, is_empty, h0]

/-- A successful `pop` preserves well-formedness, keeps `capacity`, decrements
`size`, returns the first abstract slot, and removes it from the contents. -/
theorem pop_WF (rb : RingBuffer) (hwf : WF rb) (h : 0 < rb.size) :
    WF (pop rb).2 ∧
    (pop rb).2.capacity = rb.capacity ∧
    (pop rb).2.size = rb.size - 1 ∧
    (pop rb).1 = slot rb 0 ∧
    contents rb = slot rb 0 :: contents (pop rb).2 := by
  obtain ⟨hlen, hhead, htail, hsize, htaileq, hfill, hclear⟩ := hwf
  have hn : 0 < rb.capacity := Nat.lt_of_lt_of_le h hsize
  rw [pop_ok rb h]
  dsimp only
  have hidx : ∀ i : Nat, ((rb.head + 1) % rb.capacity + i) % rb.capacity
      = (rb.head + (i + 1)) % rb.capacity := by
    intro i
    rw [Nat.mod_add_mod]
    congr 1
    omega
  have hA : ∀ i, i + 1 < rb.capacity →
      (rb.buffer.set rb.head none).getD ((rb.head + (i + 1)) % rb.capacity) none
        = slot rb (i + 1) := by
    intro i hi
    have hneq : rb.head ≠ (rb.head + (i + 1)) % rb.capacity := by
      intro hc
      have hc' : (rb.head + 0) % rb.capacity = (rb.head + (i + 1)) % rb.capacity := by
        rw [Nat.add_zero, Nat.mod_eq_of_lt hhead]
        exact hc
      exact absurd (addModInj hn hi hc') (by omega)
    rw [getD_set_ne _ _ _ _ hneq]
    rfl
  have hB : ∀ i, i + 1 = rb.capacity →
      (rb.buffer.set rb.head none).getD ((rb.head + (i + 1)) % rb.capacity) none
        = none := by
    intro i hi
    have : (rb.head + (i + 1)) % rb.capacity = rb.head := by
      rw [hi, Nat.add_mod_right, Nat.mod_eq_of_lt hhead]
    rw [this]
    exact getD_set_self _ _ _ (by rw [hlen]; exact hhead)
  refine ⟨⟨?_, ?_, ?_, ?_, ?_, ?_, ?_⟩, rfl, rfl, ?_, ?_⟩
  · simpa using hlen
  · exact Nat.mod_lt _ hn
  · exact htail
  · show rb.size - 1 ≤ rb.capacity
    omega
  · show rb.tail = ((rb.head + 1) % rb.capacity + (rb.size - 1)) % rb.capacity
    rw [hidx, htaileq]
    congr 1
    omega
  · intro i hi
    have hi' : i < rb.size - 1 := hi
    show ((rb.buffer.set rb.head none).getD
        (((rb.head + 1) % rb.capacity + i) % rb.capacity) none).isSome = true
    rw [hidx, hA i (by omega)]
    exact hfill (i + 1) (by omega)
  · intro i hi hge
    have hi' : i < rb.capacity := hi
    have hge' : rb.size - 1 ≤ i := hge
    show (rb.buffer.set rb.head none).getD
        (((rb.head + 1) % rb.capacity + i) % rb.capacity) none = none
    rw [hidx]
    rcases Nat.lt_or_ge (i + 1) rb.capacity with hlt | hge2
    · rw [hA i hlt]
      exact hclear (i + 1) hlt (by omega)
    · exact hB i (by omega)
  · show rb.buffer.getD rb.head none = rb.buffer.getD ((rb.head + 0) % rb.capacity) none
    rw [Nat.add_zero, Nat.mod_eq_of_lt hhead]
  · show (List.range rb.size).map (fun i => slot rb i)
      = slot rb 0 :: (List.range (rb.size - 1)).map (fun i =>
          (rb.buffer.set rb.head none).getD
            (((rb.head + 1) % rb.capacity + i) % rb.capacity) none)
    conv_lhs => rw [show rb.size = rb.size - 1 + 1 from by omega]
    rw [List.range_succ_eq_map, List.map_cons, List.map_map]
    congr 1
    refine List.map_congr_left fun i hi => ?_
    rw [List.mem_range] at hi
    show slot rb (i + 1) = _
    rw [hidx, hA i (by omega)]

end RingBuffer

end RustRing

namespace RustRing

namespace RingBuffer

/-- On a full buffer, `push` fails with `NoSpaceLeft` and returns the state
unchanged. -/
theorem push_full (rb : RingBuffer) (v : Nat) (h : rb.size = rb.capacity) :
    push rb v = (Except.error RingBufferError.NoSpaceLeft, rb) := by
  simp [push, is_full, h]

/-- On an empty buffer, `pop` returns `none` and the state unchanged. -/
theorem pop_empty (rb : RingBuffer) (h : rb.size = 0) :
    pop rb = (none, rb) := by
  simp [pop, is_empty, h]

/-- An empty buffer has empty abstract contents. -/
theorem contents_eq_nil (rb : RingBuffer) (h : rb.size = 0) :
    contents rb = [] := by
  simp [contents, h]

/-- The freshly constructed buffer is well-formed. -/
theorem mkEmpty_WF (c : Nat) (hc : 0 < c) : WF (mkEmpty c) := by
  refine ⟨?_, hc, hc, Nat.zero_le _, ?_, ?_, ?_⟩
  · simp [mkEmpty]
  · simp [mkEmpty]
  · intro i hi
    exact absurd hi (Nat.not_lt_zero i)
  · intro i hi _
    show (List.replicate c (none : Option Nat)).getD ((0 + i) % c) none = none
    rw [List.getD_eq_getElem?_getD, List.getElem?_replicate]
    split <;> rfl

/-- `pushAllState` steps through the head of the list. -/
theorem pushAllState_cons (rb : RingBuffer) (v : Nat) (vs : List Nat) :
    pushAllState rb (v :: vs) = pushAllState (push rb v).2 vs := rfl

/-- Pushing a list that fits in the remaining space preserves well-formedness,
keeps the capacity, adds the list length to `size`, and appends the values to
the abstract contents. -/
theorem pushAll_WF (vs : List Nat) : ∀ rb : RingBuffer, WF rb →
    vs.length ≤ rb.capacity - rb.size →
    WF (pushAllState rb vs) ∧
    (pushAllState rb vs).capacity = rb.capacity ∧
    (pushAllState rb vs).size = rb.size + vs.length ∧
    contents (pushAllState rb vs) = contents rb ++ vs.map some := by
  induction vs with
  | nil =>
    intro rb hwf _
    exact ⟨hwf, rfl, by simp [pushAllState], by simp [pushAllState]⟩
  | cons v rest ih =>
    intro rb hwf hlen
    simp only [List.length_cons] at hlen
    have hlt : rb.size < rb.capacity := by omega
    obtain ⟨hwf2, hcap2, hsize2, hcont2⟩ := push_WF rb v hwf hlt
    obtain ⟨w1, w2, w3, w4⟩ := ih (push rb v).2 hwf2 (by rw [hcap2, hsize2]; omega)
    rw [pushAllState_cons]
    refine ⟨w1, by rw [w2, hcap2], by rw [w3, hsize2]; simp only [List.length_cons]; omega, ?_⟩
    rw [w4, hcont2]
    simp

/-- If every push of `vs` succeeds then `vs` fits in the remaining space. -/
theorem pushesOk_length (vs : List Nat) : ∀ rb : RingBuffer, WF rb →
    pushesOk rb vs = true → vs.length ≤ rb.capacity - rb.size := by
  induction vs with
  | nil =>
    intro rb _ _
    simp
  | cons v rest ih =>
    intro rb hwf hok
    by_cases hfull : rb.size = rb.capacity
    · exfalso
      rw [pushesOk, push_full rb v hfull] at hok
      simp [exceptIsOk] at hok
    · have hlt : rb.size < rb.capacity := Nat.lt_of_le_of_ne hwf.2.2.2.1 hfull
      rw [pushesOk, push_ok rb v hlt] at hok
      simp only [exceptIsOk, Bool.true_and] at hok
      obtain ⟨hwf2, hcap2, hsize2, _⟩ := push_WF rb v hwf hlt
      have hrest := ih (push rb v).2 hwf2 (by rw [push_ok rb v hlt]; exact hok)
      rw [hcap2, hsize2] at hrest
      simp only [List.length_cons]
      omega

/-- Popping `n ≤ size` times under well-formedness yields the first `n`
abstract slots and decreases `size` by `n`. -/
theorem popN_spec (n : Nat) : ∀ rb : RingBuffer, WF rb → n ≤ rb.size →
    (popN rb n).1 = (contents rb).take n ∧
    WF (popN rb n).2 ∧
    (popN rb n).2.size = rb.size - n := by
  induction n with
  | zero =>
    intro rb hwf _
    exact ⟨by simp [popN], hwf, by simp [popN]⟩
  | succ k ih =>
    intro rb hwf hn
    have hpos : 0 < rb.size := by omega
    obtain ⟨hwf2, hcap2, hsize2, hval, hcont⟩ := pop_WF rb hwf hpos
    have hstep1 : (popN rb (k + 1)).1 = (pop rb).1 :: (popN (pop rb).2 k).1 := rfl
    have hstep2 : (popN rb (k + 1)).2 = (popN (pop rb).2 k).2 := rfl
    obtain ⟨i1, i2, i3⟩ := ih (pop rb).2 hwf2 (by rw [hsize2]; omega)
    refine ⟨?_, hstep2 ▸ i2, ?_⟩
    · rw [hstep1, hval, i1, hcont, List.take_succ_cons]
    · rw [hstep2, i3, hsize2]
      omega

/-- Characterization of the `extend` write loop: with `size ≤ capacity` it
writes exactly `min data.length (capacity - size)` further bytes (each one as
`push` writes it), and the returned count is the total number written, with
`NoSpaceLeft` exactly when that total is zero. -/
theorem extendLoop_eq (data : List Nat) : ∀ (rb : RingBuffer) (count : Nat),
    rb.size ≤ rb.capacity → (data = [] → 0 < count) →
    extendLoop rb data count =
      (if 0 < count + min data.length (rb.capacity - rb.size) then
         Except.ok (count + min data.length (rb.capacity - rb.size))
       else Except.error RingBufferError.NoSpaceLeft,
       pushAllState rb (data.take (min data.length (rb.capacity - rb.size)))) := by
  induction data with
  | nil =>
    intro rb count hle h0
    have hc : 0 < count := h0 rfl
    simp [extendLoop, pushAllState, hc]
  | cons b rest ih =>
    intro rb count hle h0
    by_cases hfull : rb.size = rb.capacity
    · have hms : rb.capacity - rb.size = 0 := by omega
      have hloop : extendLoop rb (b :: rest) count =
          (if count > 0 then Except.ok count
           else Except.error RingBufferError.NoSpaceLeft, rb) := by
        simp [extendLoop, is_full, hfull]
      rw [hloop, hms]
      simp [pushAllState]
    · have hlt : rb.size < rb.capacity := Nat.lt_of_le_of_ne hle hfull
      have hstep : extendLoop rb (b :: rest) count
          = extendLoop (push rb b).2 rest (count + 1) := by
        simp [extendLoop, is_full, Nat.ne_of_lt hlt, push_ok rb b hlt]
      have hsz2 : (push rb b).2.size = rb.size + 1 := by
        rw [push_ok rb b hlt]
      have hcp2 : (push rb b).2.capacity = rb.capacity := by
        rw [push_ok rb b hlt]
      rw [hstep, ih (push rb b).2 (count + 1)
        (by rw [hsz2, hcp2]; omega) (fun _ => Nat.succ_pos count)]
      rw [hsz2, hcp2]
      have hmin : min (b :: rest).length (rb.capacity - rb.size)
          = min rest.length (rb.capacity - (rb.size + 1)) + 1 := by
        have h1 : rb.capacity - rb.size = (rb.capacity - (rb.size + 1)) + 1 := by omega
        rw [List.length_cons, h1, Nat.succ_min_succ]
      rw [hmin]
      have harith : count + 1 + min rest.length (rb.capacity - (rb.size + 1))
          = count + (min rest.length (rb.capacity - (rb.size + 1)) + 1) := by omega
      rw [harith, List.take_succ_cons, pushAllState_cons]

/-- `drain` under well-formedness: it collects exactly
`min count size` values, which are the first abstract slots in read order, and
decreases `size` by that number, preserving well-formedness. -/
theorem drain_aux (count : Nat) : ∀ rb : RingBuffer, WF rb →
    (drain rb count).1.map some = (contents rb).take (min count rb.size) ∧
    (drain rb count).1.length = min count rb.size ∧
    (drain rb count).2.size = rb.size - min count rb.size ∧
    WF (drain rb count).2 ∧
    (drain rb count).2.capacity = rb.capacity := by
  induction count with
  | zero =>
    intro rb hwf
    exact ⟨by simp [drain], by simp [drain], by simp [drain], hwf, rfl⟩
  | succ k ih =>
    intro rb hwf
    by_cases hz : rb.size = 0
    · have hdrain : drain rb (k + 1) = ([], rb) := by
        simp [drain, pop_empty rb hz]
      rw [hdrain, hz]
      refine ⟨?_, ?_, ?_, hwf, rfl⟩ <;> simp [contents_eq_nil rb hz]
    · have hpos : 0 < rb.size := Nat.pos_of_ne_zero hz
      obtain ⟨hwf2, hcap2, hsize2, hval, hcont⟩ := pop_WF rb hwf hpos
      have hsome : (slot rb 0).isSome = true := hwf.2.2.2.2.2.1 0 hpos
      obtain ⟨b, hb⟩ := Option.isSome_iff_exists.mp hsome
      have hpop : pop rb = (some b, (pop rb).2) := by
        rw [Prod.ext_iff]
        exact ⟨by rw [hval, hb], rfl⟩
      have hdrain1 : (drain rb (k + 1)).1 = b :: (drain (pop rb).2 k).1 := by
        rw [drain, hpop]
      have hdrain2 : (drain rb (k + 1)).2 = (drain (pop rb).2 k).2 := by
        rw [drain, hpop]
      obtain ⟨j1, j2, j3, j4, j5⟩ := ih (pop rb).2 hwf2
      have hmin : min (k + 1) rb.size = min k ((pop rb).2.size) + 1 := by
        rw [hsize2]
        omega
      refine ⟨?_, ?_, ?_, hdrain2 ▸ j4, by rw [hdrain2, j5, hcap2]⟩
      · rw [hdrain1, hmin, hcont, hb, List.take_succ_cons, List.map_cons, j1]
      · rw [hdrain1, List.length_cons, j2, hmin]
      · rw [hdrain2, j3, hsize2, hmin, hsize2]
        omega

end RingBuffer

end RustRing

namespace RustRing

namespace RingBuffer

/-- The final state of `extend` is the state of pushing the written prefix. -/
theorem extend_state (rb : RingBuffer) (data : List Nat)
    (hle : rb.size ≤ rb.capacity) :
    (extend rb data).2
      = pushAllState rb (data.take (min data.length (rb.capacity - rb.size))) := by
  cases data with
  | nil => simp [extend, pushAllState]
  | cons b rest =>
    have hext : extend rb (b :: rest) = extendLoop rb (b :: rest) 0 := by
      simp [extend]
    rw [hext, extendLoop_eq (b :: rest) rb 0 hle (by simp)]

/-- `extend` preserves well-formedness and the capacity. -/
theorem extend_WF (rb : RingBuffer) (data : List Nat) (hwf : WF rb) :
    WF (extend rb data).2 ∧ (extend rb data).2.capacity = rb.capacity := by
  rw [extend_state rb data hwf.2.2.2.1]
  have hlen : (data.take (min data.length (rb.capacity - rb.size))).length
      ≤ rb.capacity - rb.size := by
    rw [List.length_take]
    exact le_trans (Nat.min_le_left _ _) (Nat.min_le_right _ _)
  obtain ⟨w1, w2, _, _⟩ := pushAll_WF _ rb hwf hlen
  exact ⟨w1, w2⟩

end RingBuffer

/-- Every single operation preserves well-formedness and the capacity. -/
theorem applyOp_WF (rb : RingBuffer) (op : Op) (hwf : RingBuffer.WF rb) :
    RingBuffer.WF (applyOp rb op) ∧ (applyOp rb op).capacity = rb.capacity := by
  cases op with
  | push v =>
    show RingBuffer.WF (rb.push v).2 ∧ (rb.push v).2.capacity = rb.capacity
    by_cases hfull : rb.size = rb.capacity
    · rw [RingBuffer.push_full rb v hfull]
      exact ⟨hwf, rfl⟩
    · have hlt : rb.size < rb.capacity := Nat.lt_of_le_of_ne hwf.2.2.2.1 hfull
      obtain ⟨w1, w2, _, _⟩ := RingBuffer.push_WF rb v hwf hlt
      exact ⟨w1, w2⟩
  | pop =>
    show RingBuffer.WF rb.pop.2 ∧ rb.pop.2.capacity = rb.capacity
    by_cases hz : rb.size = 0
    · rw [RingBuffer.pop_empty rb hz]
      exact ⟨hwf, rfl⟩
    · obtain ⟨w1, w2, _⟩ := RingBuffer.pop_WF rb hwf (Nat.pos_of_ne_zero hz)
      exact ⟨w1, w2⟩
  | extend data => exact RingBuffer.extend_WF rb data hwf
  | drain n =>
    obtain ⟨_, _, _, w4, w5⟩ := RingBuffer.drain_aux n rb hwf
    exact ⟨w4, w5⟩

/-- Every sequence of operations preserves well-formedness and the capacity. -/
theorem applyOps_WF (ops : List Op) : ∀ rb : RingBuffer, RingBuffer.WF rb →
    RingBuffer.WF (applyOps rb ops) ∧ (applyOps rb ops).capacity = rb.capacity := by
  induction ops with
  | nil =>
    intro rb hwf
    exact ⟨hwf, rfl⟩
  | cons op rest ih =>
    intro rb hwf
    obtain ⟨h1, h2⟩ := applyOp_WF rb op hwf
    obtain ⟨g1, g2⟩ := ih (applyOp rb op) h1
    exact ⟨g1, by
      rw [show applyOps rb (op :: rest) = applyOps (applyOp rb op) rest from rfl, g2, h2]⟩

/-- Appending one operation to a sequence applies it last. -/
theorem applyOps_append (rb : RingBuffer) (ops : List Op) (op : Op) :
    applyOps rb (ops ++ [op]) = applyOp (applyOps rb ops) op := by
  simp [applyOps, List.foldl_append]

namespace RingBuffer

/-- In a well-formed buffer, every physical slot outside the occupied window
is cleared. -/
theorem cleared_physical (rb : RingBuffer) (hwf : WF rb) :
    ∀ j, j < rb.capacity → (∀ i, i < rb.size → j ≠ (rb.head + i) % rb.capacity) →
    rb.buffer.getD j none = none := by
  intro j hj hnotin
  obtain ⟨hlen, hhead, htail, hsize, htaileq, hfill, hclear⟩ := hwf
  have hn : 0 < rb.capacity := Nat.lt_of_le_of_lt (Nat.zero_le _) hj
  have hi0lt : (j + rb.capacity - rb.head) % rb.capacity < rb.capacity := Nat.mod_lt _ hn
  have hrepr : (rb.head + (j + rb.capacity - rb.head) % rb.capacity) % rb.capacity = j := by
    rw [Nat.add_mod_mod]
    have harg : rb.head + (j + rb.capacity - rb.head) = j + rb.capacity := by omega
    rw [harg, Nat.add_mod_right, Nat.mod_eq_of_lt hj]
  have hge : rb.size ≤ (j + rb.capacity - rb.head) % rb.capacity := by
    by_contra hcon
    push_neg at hcon
    exact hnotin _ hcon hrepr.symm
  have hc := hclear _ hi0lt hge
  simp only [slot] at hc
  rwa [hrepr] at hc

end RingBuffer

end RustRing

namespace RustRing

namespace RingBuffer

/-! ### Claim theorems -/

/-- C1: for every buffer state (with the data model's `size ≤ capacity`) and
every non-empty byte sequence, `extend` writes each byte exactly as `push`
would, in order, stopping as soon as the buffer is full: if the buffer was
already full it returns `NoSpaceLeft` with the state unchanged, and otherwise
it returns `Ok` with the count actually written, namely
`min data.length (capacity - size)`, the final state being that of pushing
exactly that prefix of the input. -/
theorem extend_nonempty_spec (rb : RingBuffer) (data : List Nat)
    (hne : data ≠ []) (hle : rb.size ≤ rb.capacity) :
    (rb.size = rb.capacity →
      extend rb data = (Except.error RingBufferError.NoSpaceLeft, rb)) ∧
    (rb.size < rb.capacity →
      extend rb data =
        (Except.ok (min data.length (rb.capacity - rb.size)),
         pushAllState rb (data.take (min data.length (rb.capacity - rb.size))))) := by
  obtain ⟨b, rest, rfl⟩ := List.exists_cons_of_ne_nil hne
  have hext : extend rb (b :: rest) = extendLoop rb (b :: rest) 0 := by
    simp [extend]
  have h := extendLoop_eq (b :: rest) rb 0 hle (by simp)
  constructor
  · intro hfull
    have hms : rb.capacity - rb.size = 0 := by omega
    rw [hext, h, hms]
    simp [pushAllState]
  · intro hlt
    have hpos : 0 < 0 + min (b :: rest).length (rb.capacity - rb.size) := by
      simp only [List.length_cons, Nat.zero_add]
      omega
    rw [hext, h, if_pos hpos, Nat.zero_add]

/-- Witness for C1 at a concrete partially filled buffer: two of the three
offered bytes fit. -/
theorem extend_nonempty_spec_witness :
    extend (RingBuffer.mk [some 1, none, none] 3 0 1 1) [7, 8, 9]
      = (Except.ok 2, RingBuffer.mk [some 1, some 7, some 8] 3 0 0 3) := by
  have h := (extend_nonempty_spec (RingBuffer.mk [some 1, none, none] 3 0 1 1)
    [7, 8, 9] (by decide) (by decide)).2 (by decide)
  rw [h]
  decide

/-- C2: on every buffer state, `extend` of the empty sequence returns `Ok 0`
and leaves the whole state unchanged; in particular it does not return
`NoSpaceLeft` even on a full buffer. -/
theorem extend_nil_spec (rb : RingBuffer) :
    extend rb [] = (Except.ok 0, rb) := by
  simp [extend]

/-- C3: on every full buffer state, `push` returns `NoSpaceLeft` for every
value, the state is unchanged, and hence `len` is unchanged. -/
theorem push_full_spec (rb : RingBuffer) (v : Nat) (h : rb.size = rb.capacity) :
    push rb v = (Except.error RingBufferError.NoSpaceLeft, rb) ∧
    len (push rb v).2 = len rb :=
  ⟨push_full rb v h, by rw [push_full rb v h]⟩

/-- Witness for C3 at a concrete full buffer of capacity 1. -/
theorem push_full_spec_witness :
    push (RingBuffer.mk [some 1] 1 0 0 1) 9
      = (Except.error RingBufferError.NoSpaceLeft, RingBuffer.mk [some 1] 1 0 0 1) ∧
    len (push (RingBuffer.mk [some 1] 1 0 0 1) 9).2
      = len (RingBuffer.mk [some 1] 1 0 0 1) :=
  push_full_spec (RingBuffer.mk [some 1] 1 0 0 1) 9 (by decide)

/-- C4, counterexample: the claim quantifies over *every* buffer state, but on
a non-empty buffer the pops return the pre-existing elements first. Concretely,
on the reachable state holding the single byte 5, pushing 7 succeeds, yet one
pop returns 5, not 7. -/
theorem fifo_counterexample :
    pushesOk (RingBuffer.mk [some 5, none] 2 0 1 1) [7] = true ∧
    (popN (pushAllState (RingBuffer.mk [some 5, none] 2 0 1 1) [7]) 1).1
      ≠ [some 7] := by
  decide

/-- C4, amended: for every *well-formed, empty* buffer state and every
sequence of values whose pushes all succeed, an equal count of pops returns
exactly those values, in push order. -/
theorem fifo_from_empty (rb : RingBuffer) (vs : List Nat) (hwf : WF rb)
    (h0 : rb.size = 0) (hok : pushesOk rb vs = true) :
    (popN (pushAllState rb vs) vs.length).1 = vs.map some := by
  have hlen := pushesOk_length vs rb hwf hok
  obtain ⟨w1, w2, w3, w4⟩ := pushAll_WF vs rb hwf hlen
  have hsz : (pushAllState rb vs).size = vs.length := by
    rw [w3, h0, Nat.zero_add]
  obtain ⟨p1, _, _⟩ := popN_spec vs.length (pushAllState rb vs) w1 (by rw [hsz])
  rw [p1, w4, contents_eq_nil rb h0, List.nil_append,
    List.take_of_length_le (by simp)]

/-- Witness for the amended C4 on a fresh buffer of capacity 2. -/
theorem fifo_from_empty_witness :
    (popN (pushAllState (mkEmpty 2) [7, 8]) (List.length [7, 8])).1
      = List.map some [7, 8] :=
  fifo_from_empty (mkEmpty 2) [7, 8] (by decide) (by decide) (by decide)

end RingBuffer

/-- C5: for every positive capacity and every operation sequence (push, pop,
extend, drain — and hence after every call of any such sequence), the state
reached from the constructed buffer keeps its capacity, satisfies
`0 ≤ len ≤ capacity` (the lower bound is inherent to `Nat`), and keeps both
cursors inside `[0, capacity)`, however often they wrap. -/
theorem capacity_invariant (cap : Nat) (ops : List Op) (hcap : 0 < cap) :
    RingBuffer.new cap = some (RingBuffer.mkEmpty cap) ∧
    (applyOps (RingBuffer.mkEmpty cap) ops).capacity = cap ∧
    (applyOps (RingBuffer.mkEmpty cap) ops).size ≤ cap ∧
    (applyOps (RingBuffer.mkEmpty cap) ops).head < cap ∧
    (applyOps (RingBuffer.mkEmpty cap) ops).tail < cap := by
  obtain ⟨w1, w2⟩ := applyOps_WF ops (RingBuffer.mkEmpty cap)
    (RingBuffer.mkEmpty_WF cap hcap)
  have hc : (RingBuffer.mkEmpty cap).capacity = cap := rfl
  rw [hc] at w2
  obtain ⟨_, whead, wtail, wsize, _, _, _⟩ := w1
  rw [w2] at whead wtail wsize
  exact ⟨by simp [RingBuffer.new, hcap], w2, wsize, whead, wtail⟩

/-- Witness for C5: capacity 3, one push then one pop (the cursors have moved,
the bounds hold). -/
theorem capacity_invariant_witness :
    RingBuffer.new 3 = some (RingBuffer.mkEmpty 3) ∧
    (applyOps (RingBuffer.mkEmpty 3) [Op.push 1, Op.pop]).capacity = 3 ∧
    (applyOps (RingBuffer.mkEmpty 3) [Op.push 1, Op.pop]).size ≤ 3 ∧
    (applyOps (RingBuffer.mkEmpty 3) [Op.push 1, Op.pop]).head < 3 ∧
    (applyOps (RingBuffer.mkEmpty 3) [Op.push 1, Op.pop]).tail < 3 :=
  capacity_invariant 3 [Op.push 1, Op.pop] (by decide)

namespace RingBuffer

/-- C6: on every empty buffer state, `pop` returns `none` (an absent value,
not an error) with the state — hence `len` — unchanged, and `drain n` returns
the empty sequence for every `n` with the state unchanged. -/
theorem underflow_spec (rb : RingBuffer) (h : rb.size = 0) :
    pop rb = (none, rb) ∧
    len (pop rb).2 = len rb ∧
    ∀ n, drain rb n = ([], rb) := by
  refine ⟨pop_empty rb h, by rw [pop_empty rb h], ?_⟩
  intro n
  cases n with
  | zero => rfl
  | succ k => simp [drain, pop_empty rb h]

/-- Witness for C6 on a fresh buffer of capacity 3 (with `drain 5`). -/
theorem underflow_spec_witness :
    pop (mkEmpty 3) = (none, mkEmpty 3) ∧
    drain (mkEmpty 3) 5 = ([], mkEmpty 3) :=
  ⟨(underflow_spec (mkEmpty 3) rfl).1, (underflow_spec (mkEmpty 3) rfl).2.2 5⟩

/-- C7: on every well-formed buffer state, `drain count` pops up to `count`
values, never fails, returns exactly `min count size` values — the first
abstract slots, in read order — and leaves the buffer with `size` decreased by
that number (stopping early, without error, when the buffer empties). -/
theorem drain_spec (rb : RingBuffer) (count : Nat) (hwf : WF rb) :
    (drain rb count).1.map some = (contents rb).take (min count rb.size) ∧
    (drain rb count).1.length = min count rb.size ∧
    (drain rb count).2.size = rb.size - min count rb.size ∧
    WF (drain rb count).2 := by
  obtain ⟨h1, h2, h3, h4, _⟩ := drain_aux count rb hwf
  exact ⟨h1, h2, h3, h4⟩

/-- Witness for C7: draining 3 from a well-formed buffer holding one byte. -/
theorem drain_spec_witness :
    (drain (RingBuffer.mk [some 1, none, none] 3 0 1 1) 3).1.map some
      = (contents (RingBuffer.mk [some 1, none, none] 3 0 1 1)).take
          (min 3 (RingBuffer.mk [some 1, none, none] 3 0 1 1).size) ∧
    (drain (RingBuffer.mk [some 1, none, none] 3 0 1 1) 3).1.length
      = min 3 (RingBuffer.mk [some 1, none, none] 3 0 1 1).size ∧
    (drain (RingBuffer.mk [some 1, none, none] 3 0 1 1) 3).2.size
      = (RingBuffer.mk [some 1, none, none] 3 0 1 1).size
        - min 3 (RingBuffer.mk [some 1, none, none] 3 0 1 1).size ∧
    WF (drain (RingBuffer.mk [some 1, none, none] 3 0 1 1) 3).2 :=
  drain_spec (RingBuffer.mk [some 1, none, none] 3 0 1 1) 3 (by decide)

end RingBuffer

/-- C8: in every state reachable from construction through push, pop, extend
and drain, the `size` logical slots starting at `head` (wrapping modulo
`capacity`) hold values and every other physical slot is cleared to `none`;
moreover each of the four mutating operations applied to such a state
preserves this invariant. -/
theorem slots_invariant (cap : Nat) (ops : List Op) (hcap : 0 < cap) :
    RingBuffer.slotsOk (applyOps (RingBuffer.mkEmpty cap) ops) ∧
    ∀ op, RingBuffer.slotsOk (applyOp (applyOps (RingBuffer.mkEmpty cap) ops) op) := by
  have main : ∀ ops' : List Op, RingBuffer.slotsOk (applyOps (RingBuffer.mkEmpty cap) ops') := by
    intro ops'
    obtain ⟨w1, _⟩ := applyOps_WF ops' (RingBuffer.mkEmpty cap)
      (RingBuffer.mkEmpty_WF cap hcap)
    exact ⟨w1.2.2.2.2.2.1, RingBuffer.cleared_physical _ w1⟩
  refine ⟨main ops, fun op => ?_⟩
  have h := main (ops ++ [op])
  rwa [applyOps_append] at h

/-- Witness for C8 after two pushes and a pop at capacity 2. -/
theorem slots_invariant_witness :
    RingBuffer.slotsOk (applyOps (RingBuffer.mkEmpty 2) [Op.push 5, Op.push 6, Op.pop]) :=
  (slots_invariant 2 [Op.push 5, Op.push 6, Op.pop] (by decide)).1

namespace RingBuffer

/-- C9: `new 0` fails (the modelled `assert!` panic), and for every positive
capacity `new` succeeds with `head = tail = size = 0`, a backing vector of
length `capacity`, and every slot cleared to `none`. -/
theorem new_spec (c : Nat) :
    (c = 0 → new c = none) ∧
    (0 < c → new c = some (mkEmpty c) ∧
      (mkEmpty c).head = 0 ∧ (mkEmpty c).tail = 0 ∧ (mkEmpty c).size = 0 ∧
      (mkEmpty c).capacity = c ∧ (mkEmpty c).buffer.length = c ∧
      ∀ i, i < c → (mkEmpty c).buffer.getD i none = none) := by
  constructor
  · intro h
    simp [new, h]
  · intro h
    refine ⟨by simp [new, h], rfl, rfl, rfl, rfl, by simp [mkEmpty], ?_⟩
    intro i _
    show (List.replicate c (none : Option Nat)).getD i none = none
    rw [List.getD_eq_getElem?_getD, List.getElem?_replicate]
    split <;> rfl

/-- Witness for C9: construction fails at 0 and succeeds at 3. -/
theorem new_spec_witness :
    new 0 = none ∧ new 3 = some (mkEmpty 3) :=
  ⟨(new_spec 0).1 rfl, ((new_spec 3).2 (by decide)).1⟩

end RingBuffer

/-- C10: in every state reachable from a buffer constructed with positive
capacity, the backing vector has length `capacity` and `head` and `tail` are
strictly below that length, so the slot accesses of `push`, `pop` and
`extend` are in bounds; and `pop`'s guarded size decrement is exact (no
wraparound), so no operation other than `new` can panic. -/
theorem no_panics (cap : Nat) (ops : List Op) (hcap : 0 < cap) :
    (applyOps (RingBuffer.mkEmpty cap) ops).buffer.length
      = (applyOps (RingBuffer.mkEmpty cap) ops).capacity ∧
    (applyOps (RingBuffer.mkEmpty cap) ops).head
      < (applyOps (RingBuffer.mkEmpty cap) ops).buffer.length ∧
    (applyOps (RingBuffer.mkEmpty cap) ops).tail
      < (applyOps (RingBuffer.mkEmpty cap) ops).buffer.length ∧
    (0 < (applyOps (RingBuffer.mkEmpty cap) ops).size →
      ((applyOps (RingBuffer.mkEmpty cap) ops).pop).2.size + 1
        = (applyOps (RingBuffer.mkEmpty cap) ops).size) := by
  obtain ⟨w1, _⟩ := applyOps_WF ops (RingBuffer.mkEmpty cap)
    (RingBuffer.mkEmpty_WF cap hcap)
  obtain ⟨hlen, hhead, htail, hsize, _, _, _⟩ := w1
  refine ⟨hlen, by rw [hlen]; exact hhead, by rw [hlen]; exact htail, ?_⟩
  intro hpos
  rw [RingBuffer.pop_ok _ hpos]
  show (applyOps (RingBuffer.mkEmpty cap) ops).size - 1 + 1 = _
  omega

/-- Witness for C10 after one push at capacity 2 (the pop decrement clause is
discharged at a state with a positive size). -/
theorem no_panics_witness :
    (applyOps (RingBuffer.mkEmpty 2) [Op.push 1]).buffer.length
      = (applyOps (RingBuffer.mkEmpty 2) [Op.push 1]).capacity ∧
    (applyOps (RingBuffer.mkEmpty 2) [Op.push 1]).head
      < (applyOps (RingBuffer.mkEmpty 2) [Op.push 1]).buffer.length ∧
    (applyOps (RingBuffer.mkEmpty 2) [Op.push 1]).tail
      < (applyOps (RingBuffer.mkEmpty 2) [Op.push 1]).buffer.length ∧
    ((applyOps (RingBuffer.mkEmpty 2) [Op.push 1]).pop).2.size + 1
      = (applyOps (RingBuffer.mkEmpty 2) [Op.push 1]).size := by
  have h := no_panics 2 [Op.push 1] (by decide)
  exact ⟨h.1, h.2.1, h.2.2.1, h.2.2.2 (by decide)⟩

end RustRing
